import Mathlib

/-!
Verification of the incremental MD5 scanner (`main.go` of incrementalmd5-go).

The scanner walks a directory tree, rehashes files that are "stale"
(modification time after the last-run marker, or path absent from the
previously saved manifest), merges the results into a working manifest and
decides whether to rewrite the manifest file and the run marker.

We embed the program shallowly:
* a Go `map[string]string` is an association list with distinct keys
  (`Manifest`); `lookupD` is Go map indexing with the zero value `""`,
  `insert` is Go map assignment;
* one `FileEntry` per regular file the walk visits, carrying its path
  relative to the root, its modification time (as a `Nat`: the marker's
  zero `time.Time` is `0`) and the outcome of `fileMD5` on its contents
  (`none` models an I/O error);
* the body of the `filepath.Walk` callback (main.go:58-92) is `processFile`;
  a whole scan is a left fold over the visited files (`runScan`);
* the post-traversal write decision (main.go:96) is `writeTriggered` and the
  run-marker decision (main.go:100-110) is `markerUpdated`;
* `writeChecksums` (main.go:157-178) serializes the manifest sorted by path.

`ScanState.hashed` is an instrumentation field recording every file for
which `fileMD5` was invoked; no other field depends on it.
-/

namespace IncMd5

/-- `MD5TimestampFile` (main.go:19): the run-marker filename. -/
def MD5TimestampFile : String := ".md5sum-timestamp"

/-- Go's `strings.HasSuffix s post` (main.go:71): `post` is a suffix of
`s`.  Modelled on the character sequence: `s[len(s)-len(post):] == post`.
(Go compares the byte suffix; on UTF-8 text the marker comparison is the
same character-wise.) -/
def hasSuffix (s post : String) : Bool :=
  decide (post.data.length ≤ s.data.length) &&
    s.data.drop (s.data.length - post.data.length) == post.data

/-- A checksum manifest: Go's `map[string]string` from relative path to
checksum, as an association list.  Maps built by the program have distinct
keys (`keysNodup`). -/
abbrev Manifest := List (String × String)

/-- Go map read `m[k], ok`: the value of the first entry with key `k`. -/
def lookup : Manifest → String → Option String
  | [], _ => none
  | (k, v) :: rest, key => if k = key then some v else lookup rest key

/-- Go map indexing `m[k]`: yields the zero value `""` when `k` is absent. -/
def lookupD (m : Manifest) (k : String) : String := (lookup m k).getD ""

/-- Go map assignment `m[k] = v`: overwrite the entry if present, else add. -/
def insert : Manifest → String → String → Manifest
  | [], key, val => [(key, val)]
  | (k, v) :: rest, key, val =>
      if k = key then (k, val) :: rest else (k, v) :: insert rest key val

/-- The key set of a manifest, in entry order. -/
def keys (m : Manifest) : List String := m.map Prod.fst

/-- The invariant of every manifest the program builds: no two entries
share a key (Go maps cannot). -/
def keysNodup (m : Manifest) : Prop := (keys m).Nodup

/-- `fileExistsInChecksums` (main.go:217-220). -/
def fileExistsInChecksums (path : String) (checksums : Manifest) : Bool :=
  (lookup checksums path).isSome

/-- `mapsEqual` (main.go:205-215): same length, and every entry of `a` is
bound to the same value in `b`. -/
def mapsEqual (a b : Manifest) : Bool :=
  a.length == b.length &&
    a.all (fun kv => match lookup b kv.1 with
      | some bv => bv == kv.2
      | none => false)

/-- A regular file visited by `filepath.Walk` (entries with a walk error and
directories are filtered at main.go:59 and never reach the scanner logic):
its path relative to the scanned root, its modification time, and what
`fileMD5` returns on its contents (`none` = read/hash error). -/
structure FileEntry where
  relPath : String
  modTime : Nat
  hashResult : Option String
deriving DecidableEq, Repr

/-- The scanner's mutable locals (main.go:51-53 and 43-46), plus the
instrumentation list `hashed` of files for which `fileMD5` was invoked. -/
structure ScanState where
  changed : Bool
  neededUpdate : Bool
  processedCount : Nat
  newChecksums : Manifest
  hashed : List FileEntry
deriving DecidableEq, Repr

/-- `needsUpdate` (main.go:76): a file is stale iff its modification time is
strictly after `lastRun` or its relative path is absent from `existing`. -/
def stale (existing : Manifest) (lastRun : Nat) (f : FileEntry) : Bool :=
  decide (lastRun < f.modTime) || !fileExistsInChecksums f.relPath existing

/-- The body of the walk callback (main.go:69-91) for one visited regular
file: skip anything whose relative path ends with the marker filename;
otherwise, if stale, hash it; on hash failure leave all state unchanged;
on success record the checksum when it differs from `existing`'s value
(Go's `existingChecksums[relPath]`, zero value `""`), and in either case
set `neededUpdate`. -/
def processFile (existing : Manifest) (lastRun : Nat) (s : ScanState)
    (f : FileEntry) : ScanState :=
  if hasSuffix f.relPath MD5TimestampFile then s
  else if stale existing lastRun f then
    match f.hashResult with
    | none => { s with hashed := s.hashed ++ [f] }
    | some sum =>
      if lookupD existing f.relPath ≠ sum then
        { changed := true
          neededUpdate := true
          processedCount := s.processedCount + 1
          newChecksums := insert s.newChecksums f.relPath sum
          hashed := s.hashed ++ [f] }
      else
        { s with neededUpdate := true, hashed := s.hashed ++ [f] }
  else s

/-- The scanner's state before the walk (main.go:43-53): `newChecksums`
is seeded as a copy of the loaded manifest. -/
def initState (existing : Manifest) : ScanState :=
  { changed := false
    neededUpdate := false
    processedCount := 0
    newChecksums := existing
    hashed := [] }

/-- A whole scan over the visited regular files, in walk order
(main.go:42-92). -/
def runScan (existing : Manifest) (lastRun : Nat) (files : List FileEntry) :
    ScanState :=
  files.foldl (processFile existing lastRun) (initState existing)

/-- The write decision (main.go:96): the manifest file is rewritten unless
`!changed && mapsEqual(existing, new)`. -/
def writeTriggered (existing : Manifest) (s : ScanState) : Bool :=
  s.changed || !mapsEqual existing s.newChecksums

/-- Whether `updateLastRun` runs (main.go:100-110): always after a write,
and after a no-write scan iff `neededUpdate` was set. -/
def markerUpdated (existing : Manifest) (s : ScanState) : Bool :=
  writeTriggered existing s || s.neededUpdate

/-- The sorted key sequence built by `writeChecksums` (main.go:165-169):
Go's `sort.Strings` is ascending lexicographic byte order, which on UTF-8
agrees with the character-wise order of Lean strings. -/
def sortedPaths (m : Manifest) : List String := (keys m).mergeSort

/-- One output line (main.go:172): `"%s  %s\n"` of checksum and path. -/
def manifestLine (m : Manifest) (p : String) : String :=
  lookupD m p ++ "  " ++ p ++ "\n"

/-- The lines `writeChecksums` emits, in emission order. -/
def writtenLines (m : Manifest) : List String :=
  (sortedPaths m).map (manifestLine m)

/-- The byte content `writeChecksums` (main.go:157-178) writes. -/
def writeChecksums (m : Manifest) : String := String.join (writtenLines m)

/-- Invariant maintained by the walk: `changed` is clear exactly as long as
the working manifest is still (literally) the seeded copy of `existing`,
and once set there is a key whose binding differs from `existing`'s. -/
def changedInv (existing : Manifest) (s : ScanState) : Prop :=
  (s.changed = false → s.newChecksums = existing) ∧
  (s.changed = true → ∃ p, lookup s.newChecksums p ≠ lookup existing p)

/-! ### Basic manifest lemmas -/

theorem lookup_insert_self (m : Manifest) (k v : String) :
    lookup (insert m k v) k = some v := by
  induction m with
  | nil => simp [insert, lookup]
  | cons hd tl ih =>
    obtain ⟨a, b⟩ := hd
    by_cases h : a = k <;> simp [insert, lookup, h, ih]

theorem lookup_insert_ne (m : Manifest) {k k' : String} (v : String)
    (h : k' ≠ k) : lookup (insert m k v) k' = lookup m k' := by
  induction m with
  | nil => simp [insert, lookup, Ne.symm h]
  | cons hd tl ih =>
    obtain ⟨a, b⟩ := hd
    by_cases ha : a = k
    · subst ha
      simp [insert, lookup, Ne.symm h]
    · simp [insert, lookup, ha, ih]

theorem mem_keys_insert_iff (m : Manifest) (k v a : String) :
    a ∈ keys (insert m k v) ↔ a ∈ keys m ∨ a = k := by
  induction m with
  | nil => simp [insert, keys]
  | cons hd tl ih =>
    obtain ⟨x, y⟩ := hd
    by_cases h : x = k
    · subst h
      simp only [insert, if_pos, keys, List.map_cons, List.mem_cons]
      tauto
    · simp only [insert, if_neg h, keys, List.map_cons, List.mem_cons] at ih ⊢
      tauto

theorem lookup_eq_none_iff (m : Manifest) (k : String) :
    lookup m k = none ↔ k ∉ keys m := by
  induction m with
  | nil => simp [lookup, keys]
  | cons hd tl ih =>
    obtain ⟨a, b⟩ := hd
    by_cases h : a = k
    · subst h
      simp [lookup, keys]
    · simp [lookup, keys, h, ih, Ne.symm h]

theorem lookup_isSome_iff (m : Manifest) (k : String) :
    (lookup m k).isSome = true ↔ k ∈ keys m := by
  rw [Option.isSome_iff_ne_none, ne_eq, lookup_eq_none_iff, not_not]

theorem lookup_mem (m : Manifest) {k v : String} (h : lookup m k = some v) :
    (k, v) ∈ m := by
  induction m with
  | nil => simp [lookup] at h
  | cons hd tl ih =>
    obtain ⟨a, b⟩ := hd
    by_cases ha : a = k
    · subst ha
      simp [lookup] at h
      simp [h]
    · simp [lookup, ha] at h
      exact List.mem_cons_of_mem _ (ih h)

theorem mem_lookup_of_nodup {m : Manifest} (hm : keysNodup m)
    {k v : String} (h : (k, v) ∈ m) : lookup m k = some v := by
  induction m with
  | nil => simp at h
  | cons hd tl ih =>
    obtain ⟨a, b⟩ := hd
    simp only [keysNodup, keys, List.map_cons, List.nodup_cons] at hm
    rcases List.mem_cons.mp h with h | h
    · simp only [Prod.mk.injEq] at h
      obtain ⟨rfl, rfl⟩ := h
      simp [lookup]
    · have hak : a ≠ k := by
        intro hak
        refine hm.1 ?_
        rw [hak]
        exact List.mem_map_of_mem Prod.fst h
      simp only [lookup, if_neg hak]
      exact ih hm.2 h

theorem keysNodup_insert {m : Manifest} (hm : keysNodup m) (k v : String) :
    keysNodup (insert m k v) := by
  induction m with
  | nil => simp [insert, keysNodup, keys]
  | cons hd tl ih =>
    obtain ⟨a, b⟩ := hd
    simp only [keysNodup, keys, List.map_cons, List.nodup_cons] at hm
    by_cases h : a = k
    · subst h
      simpa [insert, keysNodup, keys] using hm
    · have htl := ih hm.2
      simp only [insert, if_neg h, keysNodup, keys, List.map_cons,
        List.nodup_cons]
      refine ⟨?_, htl⟩
      intro hmem
      rcases (mem_keys_insert_iff tl k v a).mp hmem with hmem | hmem
      · exact hm.1 hmem
      · exact h hmem

theorem length_keys (m : Manifest) : (keys m).length = m.length :=
  List.length_map _ _

/-! ### `mapsEqual` is extensional map equality -/

theorem lookup_congr_of_len_le {a b : Manifest} (ha : keysNodup a)
    (hb : keysNodup b) (hlen : a.length = b.length)
    (hall : ∀ k v, lookup a k = some v → lookup b k = some v) :
    ∀ k, lookup a k = lookup b k := by
  have hsub : (keys a).toFinset ⊆ (keys b).toFinset := by
    intro k hk
    rw [List.mem_toFinset] at hk ⊢
    rw [← lookup_isSome_iff] at hk ⊢
    cases hA : lookup a k with
    | none => rw [hA] at hk; simp at hk
    | some v => rw [hall k v hA]; rfl
  have hcard : (keys b).toFinset.card ≤ (keys a).toFinset.card := by
    rw [List.toFinset_card_of_nodup ha, List.toFinset_card_of_nodup hb,
      length_keys, length_keys, hlen]
  have hq : (keys a).toFinset = (keys b).toFinset :=
    Finset.eq_of_subset_of_card_le hsub hcard
  intro k
  cases hA : lookup a k with
  | some v => rw [hall k v hA]
  | none =>
    cases hB : lookup b k with
    | none => rfl
    | some w =>
      exfalso
      have hkb : k ∈ keys b := by
        rw [← lookup_isSome_iff, hB]; rfl
      have hka : k ∈ keys a := by
        rw [← List.mem_toFinset, hq, List.mem_toFinset]; exact hkb
      rw [lookup_eq_none_iff] at hA
      exact hA hka

theorem mapsEqual_true_iff {a b : Manifest} (ha : keysNodup a)
    (hb : keysNodup b) :
    mapsEqual a b = true ↔ ∀ k, lookup a k = lookup b k := by
  constructor
  · intro h
    simp only [mapsEqual, Bool.and_eq_true, beq_iff_eq, List.all_eq_true] at h
    obtain ⟨hlen, hall⟩ := h
    refine lookup_congr_of_len_le ha hb hlen ?_
    intro k v hkv
    have h2 := hall (k, v) (lookup_mem a hkv)
    cases hB : lookup b k with
    | none => rw [hB] at h2; simp at h2
    | some w => rw [hB] at h2; simp at h2; rw [h2]
  · intro h
    simp only [mapsEqual, Bool.and_eq_true, beq_iff_eq, List.all_eq_true]
    constructor
    · have hfs : (keys a).toFinset = (keys b).toFinset := by
        ext k
        simp only [List.mem_toFinset, ← lookup_isSome_iff, h k]
      have hc := congrArg Finset.card hfs
      rwa [List.toFinset_card_of_nodup ha, List.toFinset_card_of_nodup hb,
        length_keys, length_keys] at hc
    · intro kv hmem
      obtain ⟨k, v⟩ := kv
      have hl : lookup a k = some v := mem_lookup_of_nodup ha hmem
      have hr : lookup b k = some v := (h k) ▸ hl
      simp [hr]

theorem mapsEqual_self {m : Manifest} (hm : keysNodup m) :
    mapsEqual m m = true :=
  (mapsEqual_true_iff hm hm).mpr (fun _ => rfl)

/-! ### Single-step lemmas about `processFile` -/

theorem processFile_marker {f : FileEntry}
    (e : Manifest) (l : Nat) (s : ScanState)
    (h : hasSuffix f.relPath MD5TimestampFile = true) :
    processFile e l s f = s := by
  simp [processFile, h]

theorem processFile_not_stale {f : FileEntry}
    (e : Manifest) (l : Nat) (s : ScanState)
    (h : stale e l f = false) :
    processFile e l s f = s := by
  by_cases h1 : hasSuffix f.relPath MD5TimestampFile = true <;>
    simp [processFile, h1, h]

/-- The four possible outcomes of one walk-callback invocation: skipped
(marker suffix or not stale), hash failure, successful hash with an
unchanged checksum, or successful hash with a differing checksum. -/
theorem processFile_eq (e : Manifest) (l : Nat) (s : ScanState)
    (f : FileEntry) :
    processFile e l s f = s ∨
    processFile e l s f = { s with hashed := s.hashed ++ [f] } ∨
    processFile e l s f =
      { s with neededUpdate := true, hashed := s.hashed ++ [f] } ∨
    ∃ sum, f.hashResult = some sum ∧ lookupD e f.relPath ≠ sum ∧
      processFile e l s f =
        { changed := true
          neededUpdate := true
          processedCount := s.processedCount + 1
          newChecksums := insert s.newChecksums f.relPath sum
          hashed := s.hashed ++ [f] } := by
  by_cases h1 : hasSuffix f.relPath MD5TimestampFile = true
  · left; exact processFile_marker e l s h1
  · by_cases h2 : stale e l f = true
    · cases hh : f.hashResult with
      | none => right; left; simp [processFile, h1, h2, hh]
      | some sum =>
        by_cases h3 : lookupD e f.relPath = sum
        · right; right; left; simp [processFile, h1, h2, hh, h3]
        · right; right; right
          exact ⟨sum, rfl, h3, by simp [processFile, h1, h2, hh, h3]⟩
    · left
      exact processFile_not_stale e l s (Bool.not_eq_true _ ▸ h2)

theorem neededUpdate_processFile_mono {e : Manifest} {l : Nat}
    {s : ScanState} {f : FileEntry} (h : s.neededUpdate = true) :
    (processFile e l s f).neededUpdate = true := by
  rcases processFile_eq e l s f with he | he | he | ⟨sum, _, _, he⟩ <;>
    simp [he, h]

theorem changed_processFile_mono {e : Manifest} {l : Nat}
    {s : ScanState} {f : FileEntry} (h : s.changed = true) :
    (processFile e l s f).changed = true := by
  rcases processFile_eq e l s f with he | he | he | ⟨sum, _, _, he⟩ <;>
    simp [he, h]

theorem mem_keys_processFile_mono {e : Manifest} {l : Nat}
    {s : ScanState} {f : FileEntry} {k : String}
    (h : k ∈ keys s.newChecksums) :
    k ∈ keys (processFile e l s f).newChecksums := by
  rcases processFile_eq e l s f with he | he | he | ⟨sum, _, _, he⟩ <;>
    simp only [he]
  · exact h
  · exact h
  · exact h
  · exact (mem_keys_insert_iff _ _ _ _).mpr (Or.inl h)

theorem hashed_processFile_mono {e : Manifest} {l : Nat}
    {s : ScanState} {f g : FileEntry} (h : g ∈ s.hashed) :
    g ∈ (processFile e l s f).hashed := by
  rcases processFile_eq e l s f with he | he | he | ⟨sum, _, _, he⟩ <;>
    simp only [he] <;> simp [List.mem_append, h]

theorem keysNodup_processFile {e : Manifest} {l : Nat}
    {s : ScanState} {f : FileEntry} (h : keysNodup s.newChecksums) :
    keysNodup (processFile e l s f).newChecksums := by
  rcases processFile_eq e l s f with he | he | he | ⟨sum, _, _, he⟩ <;>
    simp only [he]
  · exact h
  · exact h
  · exact h
  · exact keysNodup_insert h _ _

/-- Where the state can only change when a hash was computed: the new
entries `processFile` records always disagree with `existing`. -/
theorem processFile_hashed_cases (e : Manifest) (l : Nat) (s : ScanState)
    (f : FileEntry) :
    (processFile e l s f).hashed = s.hashed ∨
    ((processFile e l s f).hashed = s.hashed ++ [f] ∧
      hasSuffix f.relPath MD5TimestampFile = false ∧ stale e l f = true) := by
  by_cases h1 : hasSuffix f.relPath MD5TimestampFile = true
  · left; rw [processFile_marker e l s h1]
  · by_cases h2 : stale e l f = true
    · right
      refine ⟨?_, Bool.not_eq_true _ ▸ h1, h2⟩
      cases hh : f.hashResult with
      | none => simp [processFile, h1, h2, hh]
      | some sum =>
        by_cases h3 : lookupD e f.relPath = sum <;>
          simp [processFile, h1, h2, hh, h3]
    · left
      rw [processFile_not_stale e l s (Bool.not_eq_true _ ▸ h2)]

/-! ### Fold lemmas over the visited-file list -/

theorem neededUpdate_foldl_mono (e : Manifest) (l : Nat)
    (files : List FileEntry) :
    ∀ s : ScanState, s.neededUpdate = true →
      (files.foldl (processFile e l) s).neededUpdate = true := by
  induction files with
  | nil => intro s h; exact h
  | cons f fs ih =>
    intro s h
    rw [List.foldl_cons]
    exact ih _ (neededUpdate_processFile_mono h)

theorem changed_foldl_mono (e : Manifest) (l : Nat)
    (files : List FileEntry) :
    ∀ s : ScanState, s.changed = true →
      (files.foldl (processFile e l) s).changed = true := by
  induction files with
  | nil => intro s h; exact h
  | cons f fs ih =>
    intro s h
    rw [List.foldl_cons]
    exact ih _ (changed_processFile_mono h)

theorem mem_keys_foldl_mono (e : Manifest) (l : Nat)
    (files : List FileEntry) (k : String) :
    ∀ s : ScanState, k ∈ keys s.newChecksums →
      k ∈ keys (files.foldl (processFile e l) s).newChecksums := by
  induction files with
  | nil => intro s h; exact h
  | cons f fs ih =>
    intro s h
    rw [List.foldl_cons]
    exact ih _ (mem_keys_processFile_mono h)

theorem hashed_foldl_mono (e : Manifest) (l : Nat)
    (files : List FileEntry) (g : FileEntry) :
    ∀ s : ScanState, g ∈ s.hashed →
      g ∈ (files.foldl (processFile e l) s).hashed := by
  induction files with
  | nil => intro s h; exact h
  | cons f fs ih =>
    intro s h
    rw [List.foldl_cons]
    exact ih _ (hashed_processFile_mono h)

theorem keysNodup_foldl (e : Manifest) (l : Nat) (files : List FileEntry) :
    ∀ s : ScanState, keysNodup s.newChecksums →
      keysNodup (files.foldl (processFile e l) s).newChecksums := by
  induction files with
  | nil => intro s h; exact h
  | cons f fs ih =>
    intro s h
    rw [List.foldl_cons]
    exact ih _ (keysNodup_processFile h)

theorem keysNodup_runScan {e : Manifest} (he : keysNodup e) (l : Nat)
    (files : List FileEntry) : keysNodup (runScan e l files).newChecksums :=
  keysNodup_foldl e l files _ he

/-- Every file that ever lands in the instrumentation list was stale, not
marker-suffixed, and a member of the visited list. -/
theorem hashed_foldl_elim (e : Manifest) (l : Nat)
    (files : List FileEntry) (g : FileEntry) :
    ∀ s : ScanState, g ∈ (files.foldl (processFile e l) s).hashed →
      g ∈ s.hashed ∨ (g ∈ files ∧
        hasSuffix g.relPath MD5TimestampFile = false ∧ stale e l g = true) := by
  induction files with
  | nil => intro s h; exact Or.inl h
  | cons f fs ih =>
    intro s h
    rw [List.foldl_cons] at h
    rcases ih _ h with h' | h'
    · rcases processFile_hashed_cases e l s f with hc | ⟨hc, hm, hs⟩
      · rw [hc] at h'; exact Or.inl h'
      · rw [hc, List.mem_append] at h'
        rcases h' with h' | h'
        · exact Or.inl h'
        · right
          rw [List.mem_singleton] at h'
          subst h'
          exact ⟨List.mem_cons_self _ _, hm, hs⟩
    · exact Or.inr ⟨List.mem_cons_of_mem _ h'.1, h'.2.1, h'.2.2⟩

/-! ### `changed` tracks divergence from `existing` -/

theorem changedInv_processFile {e : Manifest} {l : Nat} {s : ScanState}
    (hinv : changedInv e s) (f : FileEntry) :
    changedInv e (processFile e l s f) := by
  rcases processFile_eq e l s f with he | he | he | ⟨sum, hh, hd, he⟩
  · rwa [he]
  · rw [he]; exact hinv
  · rw [he]; exact hinv
  · rw [he]
    refine ⟨fun hc => by simp at hc, fun _ => ⟨f.relPath, ?_⟩⟩
    rw [lookup_insert_self]
    cases hE : lookup e f.relPath with
    | none => simp
    | some w =>
      have : lookupD e f.relPath = w := by simp [lookupD, hE]
      rw [this] at hd
      simp
      exact fun hc => hd hc.symm

theorem changedInv_foldl (e : Manifest) (l : Nat) (files : List FileEntry) :
    ∀ s : ScanState, changedInv e s →
      changedInv e (files.foldl (processFile e l) s) := by
  induction files with
  | nil => intro s h; exact h
  | cons f fs ih =>
    intro s h
    rw [List.foldl_cons]
    exact ih _ (changedInv_processFile h f)

theorem changedInv_runScan (e : Manifest) (l : Nat)
    (files : List FileEntry) : changedInv e (runScan e l files) :=
  changedInv_foldl e l files (initState e)
    ⟨fun _ => rfl, fun hc => by simp [initState] at hc⟩

/-- `changed` at the end of a scan is exactly extensional inequality of the
working manifest with `existing`. -/
theorem changed_eq_not_mapsEqual {e : Manifest} (he : keysNodup e)
    (l : Nat) (files : List FileEntry) :
    (runScan e l files).changed = true ↔
      mapsEqual e (runScan e l files).newChecksums = false := by
  have hinv := changedInv_runScan e l files
  have hnod := keysNodup_runScan he l files
  constructor
  · intro h
    obtain ⟨p, hp⟩ := hinv.2 h
    cases hq : mapsEqual e (runScan e l files).newChecksums with
    | false => rfl
    | true =>
      exact absurd ((mapsEqual_true_iff he hnod).mp hq p).symm hp
  · intro h
    cases hc : (runScan e l files).changed with
    | true => rfl
    | false =>
      rw [hinv.1 hc, mapsEqual_self he] at h
      cases h

/-! ### Guaranteed effects of stale files -/

/-- A stale file that hashes successfully sets `neededUpdate`, whether or
not the checksum differs (main.go:89). -/
theorem neededUpdate_processFile_of {e : Manifest} {l : Nat}
    {s : ScanState} {f : FileEntry} {sum : String}
    (h1 : hasSuffix f.relPath MD5TimestampFile = false)
    (h2 : stale e l f = true) (hh : f.hashResult = some sum) :
    (processFile e l s f).neededUpdate = true := by
  by_cases h3 : lookupD e f.relPath = sum <;>
    simp [processFile, h1, h2, hh, h3]

theorem neededUpdate_runScan_of {e : Manifest} {l : Nat}
    {files : List FileEntry} {f : FileEntry} {sum : String}
    (hf : f ∈ files)
    (h1 : hasSuffix f.relPath MD5TimestampFile = false)
    (h2 : stale e l f = true) (hh : f.hashResult = some sum) :
    (runScan e l files).neededUpdate = true := by
  obtain ⟨t1, t2, rfl⟩ := List.append_of_mem hf
  rw [runScan, List.foldl_append, List.foldl_cons]
  exact neededUpdate_foldl_mono e l t2 _ (neededUpdate_processFile_of h1 h2 hh)

/-- A new file (absent from `existing`) whose hash succeeds with a nonempty
checksum is inserted into the working manifest (main.go:84-88; a real
`fileMD5` result is 32 hex characters, never empty). -/
theorem mem_keys_processFile_of {e : Manifest} {l : Nat} {s : ScanState}
    {f : FileEntry} {sum : String}
    (h1 : hasSuffix f.relPath MD5TimestampFile = false)
    (h2 : fileExistsInChecksums f.relPath e = false)
    (hh : f.hashResult = some sum) (hs : sum ≠ "") :
    f.relPath ∈ keys (processFile e l s f).newChecksums := by
  have h2' : stale e l f = true := by simp [stale, h2]
  have hnone : lookup e f.relPath = none := by
    cases hl : lookup e f.relPath with
    | none => rfl
    | some v => rw [fileExistsInChecksums, hl] at h2; cases h2
  have hne : lookupD e f.relPath ≠ sum := by
    simp only [lookupD, hnone, Option.getD_none]
    exact fun hc => hs hc.symm
  have hstep : processFile e l s f =
      { changed := true
        neededUpdate := true
        processedCount := s.processedCount + 1
        newChecksums := insert s.newChecksums f.relPath sum
        hashed := s.hashed ++ [f] } := by
    simp [processFile, h1, h2', hh, hne]
  rw [hstep]
  exact (mem_keys_insert_iff _ _ _ _).mpr (Or.inr rfl)

theorem relPath_mem_keys_runScan {e : Manifest} {l : Nat}
    {files : List FileEntry} {f : FileEntry} {sum : String}
    (hf : f ∈ files)
    (h1 : hasSuffix f.relPath MD5TimestampFile = false)
    (h2 : fileExistsInChecksums f.relPath e = false)
    (hh : f.hashResult = some sum) (hs : sum ≠ "") :
    f.relPath ∈ keys (runScan e l files).newChecksums := by
  obtain ⟨t1, t2, rfl⟩ := List.append_of_mem hf
  rw [runScan, List.foldl_append, List.foldl_cons]
  exact mem_keys_foldl_mono e l t2 f.relPath _
    (mem_keys_processFile_of h1 h2 hh hs)

/-- Keys of the loaded manifest survive into the final working manifest:
`newChecksums` is seeded from `existing` and `insert` never removes. -/
theorem keys_subset_runScan (e : Manifest) (l : Nat)
    (files : List FileEntry) :
    ∀ k ∈ keys e, k ∈ keys (runScan e l files).newChecksums :=
  fun k hk => mem_keys_foldl_mono e l files k (initState e) hk

/-! ### Scans in which no successful stale hash happens change nothing -/

theorem processFile_preserved_of_nohash {e : Manifest} {l : Nat}
    {s : ScanState} {f : FileEntry}
    (h : hasSuffix f.relPath MD5TimestampFile = false →
      stale e l f = true → f.hashResult = none) :
    (processFile e l s f).changed = s.changed ∧
    (processFile e l s f).newChecksums = s.newChecksums := by
  by_cases h1 : hasSuffix f.relPath MD5TimestampFile = true
  · rw [processFile_marker e l s h1]; exact ⟨rfl, rfl⟩
  · by_cases h2 : stale e l f = true
    · have hh := h (Bool.not_eq_true _ ▸ h1) h2
      simp [processFile, h1, h2, hh]
    · rw [processFile_not_stale e l s (Bool.not_eq_true _ ▸ h2)]
      exact ⟨rfl, rfl⟩

theorem foldl_unchanged (e : Manifest) (l : Nat) :
    ∀ files : List FileEntry,
      (∀ f ∈ files, hasSuffix f.relPath MD5TimestampFile = false →
        stale e l f = true → f.hashResult = none) →
      ∀ s : ScanState,
        (files.foldl (processFile e l) s).changed = s.changed ∧
        (files.foldl (processFile e l) s).newChecksums = s.newChecksums := by
  intro files
  induction files with
  | nil => exact fun _ s => ⟨rfl, rfl⟩
  | cons f fs ih =>
    intro hf s
    rw [List.foldl_cons]
    have hstep :=
      processFile_preserved_of_nohash (s := s) (hf f (List.mem_cons_self f fs))
    have hrest := ih (fun g hg => hf g (List.mem_cons_of_mem _ hg))
      (processFile e l s f)
    exact ⟨hrest.1.trans hstep.1, hrest.2.trans hstep.2⟩

/-- Second-run idempotence at the scan level: rerunning with the previous
run's result manifest as `existing`, over the same files, with every file's
modification time at or before the new last-run instant, detects no change
and triggers no write. -/
theorem second_run_noop (e : Manifest) (l1 l2 : Nat) (files : List FileEntry)
    (he : keysNodup e)
    (ht : ∀ f ∈ files, f.modTime ≤ l2)
    (hh : ∀ f ∈ files, ∀ s, f.hashResult = some s → s ≠ "") :
    (runScan (runScan e l1 files).newChecksums l2 files).changed = false ∧
    (runScan (runScan e l1 files).newChecksums l2 files).newChecksums =
      (runScan e l1 files).newChecksums ∧
    writeTriggered (runScan e l1 files).newChecksums
      (runScan (runScan e l1 files).newChecksums l2 files) = false := by
  have hcond : ∀ f ∈ files, hasSuffix f.relPath MD5TimestampFile = false →
      stale (runScan e l1 files).newChecksums l2 f = true →
      f.hashResult = none := by
    intro f hf hm hs
    cases hres : f.hashResult with
    | none => rfl
    | some sum =>
      exfalso
      have hsum : sum ≠ "" := hh f hf sum hres
      have htime : decide (l2 < f.modTime) = false :=
        decide_eq_false (Nat.not_lt.mpr (ht f hf))
      rw [stale, htime, Bool.false_or, Bool.not_eq_true'] at hs
      have hnmem : f.relPath ∉ keys (runScan e l1 files).newChecksums := by
        rw [← lookup_isSome_iff]
        rw [fileExistsInChecksums] at hs
        simp [hs]
      have hnot1 : fileExistsInChecksums f.relPath e = false := by
        cases hb : fileExistsInChecksums f.relPath e with
        | false => rfl
        | true =>
          exact absurd (keys_subset_runScan e l1 files f.relPath
            ((lookup_isSome_iff e f.relPath).mp hb)) hnmem
      exact hnmem (relPath_mem_keys_runScan hf hm hnot1 hres hsum)
  have hr := foldl_unchanged (runScan e l1 files).newChecksums l2 files hcond
    (initState (runScan e l1 files).newChecksums)
  have hch : (runScan (runScan e l1 files).newChecksums l2 files).changed
      = false := hr.1
  have hne : (runScan (runScan e l1 files).newChecksums l2 files).newChecksums
      = (runScan e l1 files).newChecksums := hr.2
  refine ⟨hch, hne, ?_⟩
  rw [writeTriggered, hch, hne,
    mapsEqual_self (keysNodup_runScan he l1 files)]
  rfl

/-! ### Touch-without-edit: stale file, unchanged checksum -/

/-- A stale file whose recomputed checksum matches `existing`'s value only
sets `neededUpdate` (and is recorded as hashed): main.go:84 is not taken. -/
theorem processFile_touch {e : Manifest} {l : Nat} {s : ScanState}
    {f : FileEntry} {sum : String}
    (h1 : hasSuffix f.relPath MD5TimestampFile = false)
    (ht : l < f.modTime)
    (hex : lookup e f.relPath = some sum)
    (hhash : f.hashResult = some sum) :
    processFile e l s f =
      { s with neededUpdate := true, hashed := s.hashed ++ [f] } := by
  have h2 : stale e l f = true := by simp [stale, ht]
  have h3 : lookupD e f.relPath = sum := by simp [lookupD, hex]
  simp [processFile, h1, h2, hhash, h3]

/-! ### Stale files are hashed -/

theorem mem_hashed_processFile_of {e : Manifest} {l : Nat} {s : ScanState}
    {f : FileEntry}
    (h1 : hasSuffix f.relPath MD5TimestampFile = false)
    (h2 : stale e l f = true) :
    f ∈ (processFile e l s f).hashed := by
  cases hh : f.hashResult with
  | none => simp [processFile, h1, h2, hh]
  | some sum =>
    by_cases h3 : lookupD e f.relPath = sum <;>
      simp [processFile, h1, h2, hh, h3]

theorem mem_hashed_runScan_of {e : Manifest} {l : Nat}
    {files : List FileEntry} {f : FileEntry}
    (hf : f ∈ files)
    (h1 : hasSuffix f.relPath MD5TimestampFile = false)
    (h2 : stale e l f = true) :
    f ∈ (runScan e l files).hashed := by
  obtain ⟨t1, t2, rfl⟩ := List.append_of_mem hf
  rw [runScan, List.foldl_append, List.foldl_cons]
  exact hashed_foldl_mono e l t2 f _ (mem_hashed_processFile_of h1 h2)

/-! ### No key ending in the marker filename is ever created -/

theorem keys_no_marker_processFile {e : Manifest} {l : Nat} {s : ScanState}
    {f : FileEntry}
    (h : ∀ k ∈ keys s.newChecksums, hasSuffix k MD5TimestampFile = false) :
    ∀ k ∈ keys (processFile e l s f).newChecksums,
      hasSuffix k MD5TimestampFile = false := by
  by_cases h1 : hasSuffix f.relPath MD5TimestampFile = true
  · rw [processFile_marker e l s h1]; exact h
  · rcases processFile_eq e l s f with he | he | he | ⟨sum, hh, hd, he⟩ <;>
      rw [he]
    · exact h
    · exact h
    · exact h
    · intro k hk
      rcases (mem_keys_insert_iff _ _ _ _).mp hk with hk | hk
      · exact h k hk
      · subst hk
        exact Bool.not_eq_true _ ▸ h1

theorem keys_no_marker_foldl (e : Manifest) (l : Nat) :
    ∀ files : List FileEntry, ∀ s : ScanState,
      (∀ k ∈ keys s.newChecksums, hasSuffix k MD5TimestampFile = false) →
      ∀ k ∈ keys (files.foldl (processFile e l) s).newChecksums,
        hasSuffix k MD5TimestampFile = false := by
  intro files
  induction files with
  | nil => intro s h; exact h
  | cons f fs ih =>
    intro s h
    rw [List.foldl_cons]
    exact ih _ (keys_no_marker_processFile h)

theorem keys_no_marker_runScan {existing : Manifest} {lastRun : Nat}
    {files : List FileEntry}
    (hexist : ∀ k ∈ keys existing, hasSuffix k MD5TimestampFile = false) :
    ∀ k ∈ keys (runScan existing lastRun files).newChecksums,
      hasSuffix k MD5TimestampFile = false := by
  rw [runScan]
  exact keys_no_marker_foldl existing lastRun files (initState existing)
    hexist

/-! ### The serialized manifest -/

theorem sortedPaths_perm (m : Manifest) :
    List.Perm (sortedPaths m) (keys m) :=
  List.mergeSort_perm (keys m) _

theorem sortedPaths_sorted (m : Manifest) :
    (sortedPaths m).Sorted (· ≤ ·) :=
  List.sorted_mergeSort' (keys m)

theorem sortedPaths_strictSorted {m : Manifest} (hm : keysNodup m) :
    (sortedPaths m).Sorted (· < ·) :=
  (sortedPaths_sorted m).lt_of_le ((sortedPaths_perm m).nodup_iff.mpr hm)

/-! ### The claims -/

/-- C1, refuted as stated: a scan whose only visited file is stale but
fails to hash (main.go:79-82 returns before `neededUpdate = true` at
main.go:89) ends with `neededUpdate` clear, and the run marker is not
rewritten. -/
theorem claim_C1_counterexample :
    stale [] 0 ⟨"a.txt", 5, none⟩ = true ∧
    (runScan [] 0 [⟨"a.txt", 5, none⟩]).neededUpdate = false ∧
    markerUpdated [] (runScan [] 0 [⟨"a.txt", 5, none⟩]) = false := by
  refine ⟨?_, ?_, ?_⟩ <;> decide

/-- C1 (amended): for every scan in which at least one visited
non-marker-suffixed file is determined stale and is successfully hashed,
`neededUpdate` is set regardless of whether its checksum differed, and
consequently the run marker is rewritten at the end of the scan even when
no manifest write is triggered. -/
theorem claim_C1 {existing : Manifest} {lastRun : Nat}
    {files : List FileEntry} {f : FileEntry} {sum : String}
    (hf : f ∈ files)
    (hmarker : hasSuffix f.relPath MD5TimestampFile = false)
    (hstale : stale existing lastRun f = true)
    (hhash : f.hashResult = some sum) :
    (runScan existing lastRun files).neededUpdate = true ∧
    markerUpdated existing (runScan existing lastRun files) = true := by
  have hn := neededUpdate_runScan_of hf hmarker hstale hhash
  exact ⟨hn, by rw [markerUpdated, hn, Bool.or_true]⟩

theorem claim_C1_witness :
    (runScan [] 0 [⟨"a.txt", 5, some "abc"⟩]).neededUpdate = true ∧
    markerUpdated [] (runScan [] 0 [⟨"a.txt", 5, some "abc"⟩]) = true :=
  claim_C1 (List.mem_singleton.mpr rfl) (by decide) (by decide) rfl

/-- C2: rerunning the scanner over the same visited files, with the first
run's result manifest as the loaded manifest and a last-run instant at or
after every file's modification time, detects no change (`changed` stays
clear), triggers no write, and the serialized manifest bytes are identical
to the first run's.  Hypotheses: the loaded manifest is a map (distinct
keys) and successful `fileMD5` results are nonempty (a real MD5 hex digest
has 32 characters). -/
theorem claim_C2 (existing : Manifest) (lastRun1 lastRun2 : Nat)
    (files : List FileEntry)
    (hnodup : keysNodup existing)
    (htime : ∀ f ∈ files, f.modTime ≤ lastRun2)
    (hhash : ∀ f ∈ files, ∀ s, f.hashResult = some s → s ≠ "") :
    (runScan (runScan existing lastRun1 files).newChecksums lastRun2
      files).changed = false ∧
    writeTriggered (runScan existing lastRun1 files).newChecksums
      (runScan (runScan existing lastRun1 files).newChecksums lastRun2
        files) = false ∧
    writeChecksums (runScan (runScan existing lastRun1 files).newChecksums
        lastRun2 files).newChecksums =
      writeChecksums (runScan existing lastRun1 files).newChecksums := by
  obtain ⟨h1, h2, h3⟩ :=
    second_run_noop existing lastRun1 lastRun2 files hnodup htime hhash
  exact ⟨h1, h3, by rw [h2]⟩

theorem claim_C2_witness :
    (runScan (runScan [] 0 [⟨"a.txt", 1, some "abc"⟩]).newChecksums 5
      [⟨"a.txt", 1, some "abc"⟩]).changed = false ∧
    writeTriggered (runScan [] 0 [⟨"a.txt", 1, some "abc"⟩]).newChecksums
      (runScan (runScan [] 0 [⟨"a.txt", 1, some "abc"⟩]).newChecksums 5
        [⟨"a.txt", 1, some "abc"⟩]) = false ∧
    writeChecksums (runScan (runScan [] 0
        [⟨"a.txt", 1, some "abc"⟩]).newChecksums 5
        [⟨"a.txt", 1, some "abc"⟩]).newChecksums =
      writeChecksums (runScan [] 0
        [⟨"a.txt", 1, some "abc"⟩]).newChecksums :=
  claim_C2 [] 0 5 [⟨"a.txt", 1, some "abc"⟩] List.nodup_nil
    (by
      intro f hf
      rw [List.mem_singleton] at hf
      subst hf
      decide)
    (by
      intro f hf s hs
      rw [List.mem_singleton] at hf
      subst hf
      simp only [Option.some.injEq] at hs
      subst hs
      decide)

/-- C3: a visited file whose modification time is not strictly after the
last-run instant and whose relative path is a key of the loaded manifest
has a false stale test and is never hashed during any scan. -/
theorem claim_C3 {existing : Manifest} {lastRun : Nat}
    {files : List FileEntry} {f : FileEntry}
    (htime : f.modTime ≤ lastRun)
    (hmem : fileExistsInChecksums f.relPath existing = true) :
    stale existing lastRun f = false ∧
    f ∉ (runScan existing lastRun files).hashed := by
  have hstale : stale existing lastRun f = false := by
    simp [stale, Nat.not_lt.mpr htime, hmem]
  refine ⟨hstale, fun hc => ?_⟩
  rw [runScan] at hc
  rcases hashed_foldl_elim existing lastRun files f (initState existing) hc
    with h | h
  · simp [initState] at h
  · rw [h.2.2] at hstale
    cases hstale

theorem claim_C3_witness :
    stale [("a.txt", "abc")] 5 ⟨"a.txt", 1, some "abc"⟩ = false ∧
    ⟨"a.txt", 1, some "abc"⟩ ∉
      (runScan [("a.txt", "abc")] 5
        [⟨"a.txt", 1, some "abc"⟩]).hashed :=
  claim_C3 (by decide) (by decide)

/-- C4, refuted as stated: a visited regular file whose relative path
merely ends with the marker filename is skipped at main.go:71-74 even
though it is absent from the loaded manifest, so it is neither hashed nor
added. -/
theorem claim_C4_counterexample :
    fileExistsInChecksums "data.md5sum-timestamp" [] = false ∧
    (runScan [] 0 [⟨"data.md5sum-timestamp", 5, some "abc"⟩]).hashed
      = [] ∧
    "data.md5sum-timestamp" ∉
      keys (runScan [] 0
        [⟨"data.md5sum-timestamp", 5, some "abc"⟩]).newChecksums := by
  refine ⟨?_, ?_, ?_⟩ <;> decide

/-- C4 (amended): every visited regular file whose relative path does not
end with the marker filename and is absent from the loaded manifest is
determined stale and hashed regardless of its modification time, and on
hashing success (a real digest is nonempty) its entry is added to the
working manifest. -/
theorem claim_C4 {existing : Manifest} {lastRun : Nat}
    {files : List FileEntry} {f : FileEntry} {sum : String}
    (hf : f ∈ files)
    (hmarker : hasSuffix f.relPath MD5TimestampFile = false)
    (habsent : fileExistsInChecksums f.relPath existing = false)
    (hhash : f.hashResult = some sum) (hsum : sum ≠ "") :
    stale existing lastRun f = true ∧
    f ∈ (runScan existing lastRun files).hashed ∧
    f.relPath ∈ keys (runScan existing lastRun files).newChecksums := by
  have hstale : stale existing lastRun f = true := by
    simp [stale, habsent]
  exact ⟨hstale, mem_hashed_runScan_of hf hmarker hstale,
    relPath_mem_keys_runScan hf hmarker habsent hhash hsum⟩

theorem claim_C4_witness :
    stale [] 7 ⟨"b.txt", 2, some "ffff"⟩ = true ∧
    ⟨"b.txt", 2, some "ffff"⟩ ∈
      (runScan [] 7 [⟨"b.txt", 2, some "ffff"⟩]).hashed ∧
    "b.txt" ∈ keys (runScan [] 7
      [⟨"b.txt", 2, some "ffff"⟩]).newChecksums :=
  claim_C4 (List.mem_singleton.mpr rfl) (by decide) (by decide) rfl
    (by decide)

/-- C5: a file stale only through its modification time (its path is in the
loaded manifest) whose fresh checksum equals the recorded value does not
set `changed`, does not alter the working manifest, and does not increment
the processed-file counter; it is rehashed and only sets `neededUpdate`. -/
theorem claim_C5 {existing : Manifest} {lastRun : Nat} {s : ScanState}
    {f : FileEntry} {sum : String}
    (hmarker : hasSuffix f.relPath MD5TimestampFile = false)
    (htime : lastRun < f.modTime)
    (hmem : lookup existing f.relPath = some sum)
    (hhash : f.hashResult = some sum) :
    (processFile existing lastRun s f).changed = s.changed ∧
    (processFile existing lastRun s f).newChecksums = s.newChecksums ∧
    (processFile existing lastRun s f).processedCount = s.processedCount ∧
    (processFile existing lastRun s f).neededUpdate = true ∧
    (processFile existing lastRun s f).hashed = s.hashed ++ [f] := by
  rw [processFile_touch hmarker htime hmem hhash]
  exact ⟨rfl, rfl, rfl, rfl, rfl⟩

theorem claim_C5_witness :
    (processFile [("a.txt", "abc")] 3 (initState [("a.txt", "abc")])
      ⟨"a.txt", 7, some "abc"⟩).changed
      = (initState [("a.txt", "abc")]).changed ∧
    (processFile [("a.txt", "abc")] 3 (initState [("a.txt", "abc")])
      ⟨"a.txt", 7, some "abc"⟩).newChecksums
      = (initState [("a.txt", "abc")]).newChecksums ∧
    (processFile [("a.txt", "abc")] 3 (initState [("a.txt", "abc")])
      ⟨"a.txt", 7, some "abc"⟩).processedCount
      = (initState [("a.txt", "abc")]).processedCount ∧
    (processFile [("a.txt", "abc")] 3 (initState [("a.txt", "abc")])
      ⟨"a.txt", 7, some "abc"⟩).neededUpdate = true ∧
    (processFile [("a.txt", "abc")] 3 (initState [("a.txt", "abc")])
      ⟨"a.txt", 7, some "abc"⟩).hashed
      = (initState [("a.txt", "abc")]).hashed ++
        [⟨"a.txt", 7, some "abc"⟩] :=
  claim_C5 (by decide) (by decide) (by decide) rfl

/-- C6: after traversal, the manifest file is left untouched exactly when
`changed` is clear and the working manifest agrees with the loaded one on
every key (same key set and values); in that no-write case the run marker
is updated exactly when `neededUpdate` was set.  Equivalently, a write is
triggered iff `changed` is set or the manifests differ. -/
theorem claim_C6 {existing : Manifest} (hnodup : keysNodup existing)
    (lastRun : Nat) (files : List FileEntry) :
    (writeTriggered existing (runScan existing lastRun files) = false ↔
      ((runScan existing lastRun files).changed = false ∧
        ∀ k, lookup existing k =
          lookup (runScan existing lastRun files).newChecksums k)) ∧
    (writeTriggered existing (runScan existing lastRun files) = false →
      markerUpdated existing (runScan existing lastRun files) =
        (runScan existing lastRun files).neededUpdate) := by
  have hiff := mapsEqual_true_iff hnodup
    (keysNodup_runScan hnodup lastRun files)
  constructor
  · constructor
    · intro h
      rw [writeTriggered] at h
      rcases Bool.or_eq_false_iff.mp h with ⟨h1, h2⟩
      refine ⟨h1, hiff.mp ?_⟩
      cases hq : mapsEqual existing
          (runScan existing lastRun files).newChecksums with
      | true => rfl
      | false => rw [hq] at h2; cases h2
    · rintro ⟨h1, h2⟩
      rw [writeTriggered, h1, hiff.mpr h2]
      rfl
  · intro h
    rw [markerUpdated, h, Bool.false_or]

theorem claim_C6_witness :
    (writeTriggered [("a.txt", "x")] (runScan [("a.txt", "x")] 0 [])
        = false ↔
      ((runScan [("a.txt", "x")] 0 []).changed = false ∧
        ∀ k, lookup [("a.txt", "x")] k =
          lookup (runScan [("a.txt", "x")] 0 []).newChecksums k)) ∧
    (writeTriggered [("a.txt", "x")] (runScan [("a.txt", "x")] 0 [])
        = false →
      markerUpdated [("a.txt", "x")] (runScan [("a.txt", "x")] 0 []) =
        (runScan [("a.txt", "x")] 0 []).neededUpdate) :=
  claim_C6 (show (keys [("a.txt", "x")]).Nodup by decide) 0 []

/-- C7: every saved manifest's path sequence is strictly ascending in
lexicographic order with no duplicates, contains exactly the manifest's
keys, and every emitted line is checksum, two spaces, path, newline. -/
theorem claim_C7 {m : Manifest} (hm : keysNodup m) :
    (sortedPaths m).Sorted (· < ·) ∧
    (∀ p, p ∈ sortedPaths m ↔ p ∈ keys m) ∧
    ∀ line ∈ writtenLines m, ∃ c p, lookup m p = some c ∧
      line = c ++ "  " ++ p ++ "\n" := by
  refine ⟨sortedPaths_strictSorted hm,
    fun p => (sortedPaths_perm m).mem_iff, ?_⟩
  intro line hl
  rw [writtenLines, List.mem_map] at hl
  obtain ⟨p, hp, rfl⟩ := hl
  have hpk : p ∈ keys m := (sortedPaths_perm m).mem_iff.mp hp
  obtain ⟨c, hc⟩ :=
    Option.isSome_iff_exists.mp ((lookup_isSome_iff m p).mpr hpk)
  exact ⟨c, p, hc, by simp [manifestLine, lookupD, hc]⟩

theorem claim_C7_witness :
    (sortedPaths [("b.txt", "22"), ("a.txt", "11")]).Sorted (· < ·) ∧
    (∀ p, p ∈ sortedPaths [("b.txt", "22"), ("a.txt", "11")] ↔
      p ∈ keys [("b.txt", "22"), ("a.txt", "11")]) ∧
    ∀ line ∈ writtenLines [("b.txt", "22"), ("a.txt", "11")],
      ∃ c p, lookup [("b.txt", "22"), ("a.txt", "11")] p = some c ∧
        line = c ++ "  " ++ p ++ "\n" :=
  claim_C7 (show (keys [("b.txt", "22"), ("a.txt", "11")]).Nodup by decide)

/-- C8: a visited file whose relative path ends with the marker filename is
skipped entirely — the walk step returns the state unchanged and the file
is never hashed — and, provided the loaded manifest has no key ending in
the marker filename, the marker filename is not a key of the final working
manifest (so it never appears in any saved manifest). -/
theorem claim_C8 {existing : Manifest} {lastRun : Nat}
    {files : List FileEntry} {f : FileEntry} {s : ScanState}
    (hexist : ∀ k ∈ keys existing, hasSuffix k MD5TimestampFile = false)
    (hf : hasSuffix f.relPath MD5TimestampFile = true) :
    processFile existing lastRun s f = s ∧
    f ∉ (runScan existing lastRun files).hashed ∧
    MD5TimestampFile ∉
      keys (runScan existing lastRun files).newChecksums := by
  refine ⟨processFile_marker existing lastRun s hf, fun hc => ?_,
    fun hc => ?_⟩
  · rw [runScan] at hc
    rcases hashed_foldl_elim existing lastRun files f (initState existing)
      hc with h | h
    · simp [initState] at h
    · rw [h.2.1] at hf; cases hf
  · have hmark := keys_no_marker_runScan hexist MD5TimestampFile hc
    have hself : hasSuffix MD5TimestampFile MD5TimestampFile = true := by
      decide
    rw [hself] at hmark
    cases hmark

theorem claim_C8_witness :
    processFile [] 0 (initState []) ⟨".md5sum-timestamp", 3, some "aa"⟩
      = initState [] ∧
    ⟨".md5sum-timestamp", 3, some "aa"⟩ ∉
      (runScan [] 0 [⟨".md5sum-timestamp", 3, some "aa"⟩]).hashed ∧
    MD5TimestampFile ∉
      keys (runScan [] 0
        [⟨".md5sum-timestamp", 3, some "aa"⟩]).newChecksums :=
  claim_C8 (fun k hk => absurd hk (List.not_mem_nil k)) (by decide)

/-- C9: the working manifest's key set only grows: it starts as a copy of
the loaded manifest, entries are only added or overwritten, so every key
of the loaded manifest is a key of the final working manifest. -/
theorem claim_C9 {existing : Manifest} {lastRun : Nat}
    {files : List FileEntry} {k : String}
    (hk : k ∈ keys existing) :
    k ∈ keys (runScan existing lastRun files).newChecksums :=
  keys_subset_runScan existing lastRun files k hk

theorem claim_C9_witness :
    "a.txt" ∈ keys (runScan [("a.txt", "abc")] 0
      [⟨"b.txt", 5, none⟩]).newChecksums :=
  claim_C9 (by decide)

/-- C10: at the end of traversal the two write signals coincide: `changed`
is set iff `mapsEqual existing current` is false, so the write trigger
`changed || !mapsEqual existing current` equals `changed` and the
disjunction never fires on the equality side alone. -/
theorem claim_C10 {existing : Manifest} (hnodup : keysNodup existing)
    (lastRun : Nat) (files : List FileEntry) :
    ((runScan existing lastRun files).changed = true ↔
      mapsEqual existing (runScan existing lastRun files).newChecksums
        = false) ∧
    writeTriggered existing (runScan existing lastRun files) =
      (runScan existing lastRun files).changed := by
  have hiff := changed_eq_not_mapsEqual hnodup lastRun files
  refine ⟨hiff, ?_⟩
  cases hc : (runScan existing lastRun files).changed with
  | true => rw [writeTriggered, hc]; rfl
  | false =>
    cases hq : mapsEqual existing
        (runScan existing lastRun files).newChecksums with
    | false =>
      have hcontra := hiff.mpr hq
      rw [hc] at hcontra
      cases hcontra
    | true =>
      rw [writeTriggered, hc, hq]
      rfl

theorem claim_C10_witness :
    ((runScan [("a.txt", "abc")] 4 [⟨"a.txt", 9, some "abc"⟩]).changed
        = true ↔
      mapsEqual [("a.txt", "abc")]
        (runScan [("a.txt", "abc")] 4
          [⟨"a.txt", 9, some "abc"⟩]).newChecksums = false) ∧
    writeTriggered [("a.txt", "abc")]
      (runScan [("a.txt", "abc")] 4 [⟨"a.txt", 9, some "abc"⟩]) =
      (runScan [("a.txt", "abc")] 4 [⟨"a.txt", 9, some "abc"⟩]).changed :=
  claim_C10 (show (keys [("a.txt", "abc")]).Nodup by decide) 4
    [⟨"a.txt", 9, some "abc"⟩]

end IncMd5
